import Mathlib

/-!
Verification development for the STWMissionsScraper repository (single Go
source file `main.go`).

Strings are modelled as `List Char` (`Str`).  Each Go function of the core
logic is translated into an executable Lean definition:

  * `processFragment`   — the body of the `c.OnHTML` callback in
                          `fetchMissions` (promo filter + field extractor);
  * `fetchMissions`     — mapping the extractor over the scraped fragments;
  * `fetchMissionsIO`   — the error path of `fetchMissions` (`log.Fatal` on a
                          failed `c.Visit`);
  * `escapeMarkdown`, `formatMissionsForTelegram`, `telegramTotal`
                        — the Telegram formatter;
  * `loadFromCache`, `saveToCache`, `getMissions`
                        — the cache store, with the file system modelled as an
                          explicit `DiskState` value and the clock as an
                          explicit `GoTime` argument.

Machine-integer behaviour of `strconv.Atoi` and of Go `int` addition (64-bit)
is modelled explicitly (`goAtoi`, `goAddInt`, `wrap64`).
-/

/-- Strings of the Go program, modelled as lists of characters. -/
abbrev Str := List Char

/-- Whitespace test used by Go's `strings.TrimSpace` / `strings.Fields`
(`unicode.IsSpace`): space, tab, newline, vertical tab, form feed, carriage
return, NEL, NBSP and the Unicode space separators. -/
def isSpace (c : Char) : Bool :=
  c == ' ' || c == '\t' || c == '\n' || c == Char.ofNat 11 || c == Char.ofNat 12 ||
  c == '\r' || c == Char.ofNat 0x85 || c == Char.ofNat 0xA0 ||
  c == Char.ofNat 0x1680 ||
  (Char.ofNat 0x2000 ≤ c && c ≤ Char.ofNat 0x200A) ||
  c == Char.ofNat 0x2028 || c == Char.ofNat 0x2029 || c == Char.ofNat 0x202F ||
  c == Char.ofNat 0x205F || c == Char.ofNat 0x3000

/-- Decimal-digit test from `main.go` line 191: `c >= '0' && c <= '9'`. -/
def isGoDigit (c : Char) : Bool := '0' ≤ c && c ≤ '9'

/-- Go `strings.TrimSpace`: drop whitespace from both ends. -/
def trimSpace (s : Str) : Str :=
  ((s.dropWhile isSpace).reverse.dropWhile isSpace).reverse

/-- Accumulator-passing worker for `fields` (`cur` holds the reversed current
word). -/
def fieldsAux (cur : Str) : Str → List Str
  | [] => if cur = [] then [] else [cur.reverse]
  | c :: rest =>
    if isSpace c then
      if cur = [] then fieldsAux [] rest else cur.reverse :: fieldsAux [] rest
    else
      fieldsAux (c :: cur) rest

/-- Go `strings.Fields`: split around runs of whitespace, no empty words. -/
def fields (s : Str) : List Str := fieldsAux [] s

/-- Go `strings.Join(ws, " ")`. -/
def joinWords : List Str → Str
  | [] => []
  | [w] => w
  | w :: v :: rest => w ++ ' ' :: joinWords (v :: rest)

/-- The literal separator `" in "` from `main.go` line 168. -/
def sepIn : Str := [' ', 'i', 'n', ' ']

/-- Go `strings.Contains(s, pat)`: some suffix of `s` starts with `pat`. -/
def containsSub : Str → Str → Bool
  | [], pat => pat.isEmpty
  | c :: rest, pat => pat.isPrefixOf (c :: rest) || containsSub rest pat

/-- Helper for `splitOnIn`: prepend a character to the first part. -/
def consH (c : Char) : List Str → List Str
  | [] => [[c]]
  | p :: ps => (c :: p) :: ps

/-- Go `strings.Split(s, " in ")`: split around every (leftmost,
non-overlapping) occurrence of the separator. -/
def splitOnIn : Str → List Str
  | [] => [[]]
  | c :: rest =>
    if sepIn.isPrefixOf (c :: rest) then
      match rest with
      | _ :: _ :: _ :: rest' => [] :: splitOnIn rest'
      | _ => [[]]
    else
      consH c (splitOnIn rest)

/-- The promotional phrase skipped at `main.go` line 161
(`Use code "iFeral"`). -/
def promoPhrase : Str := ("Use code \"iFeral\"").toList

/-- VBucksMission represents a mission that rewards V-Bucks
(struct from `main.go` lines 19-24). -/
structure VBucksMission where
  Area : Str
  PowerLevel : Str
  Amount : Str
  MissionType : Str
deriving DecidableEq

/-- 1. body of the `c.OnHTML` handler in `fetchMissions` (`main.go` lines
159-213): skip the support-a-creator fragment, split off the area on `" in "`,
split the main part into whitespace fields, peel the leading digits off the
second field, and build the mission record; `none` models the early `return`s
for malformed fragments. -/
def processFragment (eText : Str) : Option VBucksMission :=
  if containsSub eText promoPhrase then none
  else
    let text := trimSpace eText
    match splitOnIn text with
    | part0 :: part1 :: _ =>
      let area := trimSpace part1
      let mainPart := part0
      match fields mainPart with
      | amount :: powerLevel :: restFields =>
        let powerLevelDigits := powerLevel.takeWhile isGoDigit
        let restTok := powerLevel.dropWhile isGoDigit
        let missionType :=
          if restTok = [] then joinWords restFields
          else restTok ++ ' ' :: joinWords restFields
        some ⟨area, powerLevelDigits, amount, trimSpace missionType⟩
      | _ => none
    | _ => none

/-- Successful path of `fetchMissions` (`main.go` lines 151-222): the colly
collector yields the text of every matched div, in document order, and the
handler appends one record per accepted fragment. -/
def fetchMissions (fragments : List Str) : List VBucksMission :=
  fragments.filterMap processFragment

/-- Outcome of running `fetchMissions` including its error path: `fatalExit`
models `log.Fatal(err)` (`main.go` lines 216-219), which terminates the whole
process. -/
inductive FetchOutcome
  | fatalExit (msg : Str)
  | missions (ms : List VBucksMission)
deriving DecidableEq

/-- Run of `fetchMissions` given the result of `c.Visit`: on a visit error the
code calls `log.Fatal(err)` and the process exits; otherwise the scraped
fragments are processed. -/
def fetchMissionsIO (visit : Except Str (List Str)) : FetchOutcome :=
  match visit with
  | .error e => .fatalExit e
  | .ok frags => .missions (fetchMissions frags)

/-- The fixed set of MarkdownV2 special characters from `escapeMarkdown`
(`main.go` line 260).  Backtick and the two braces are written via their code
points. -/
def specialChars : List Char :=
  ['_', '*', '[', ']', '(', ')', '~', Char.ofNat 96, '>', '#', '+', '-', '=',
   '|', Char.ofNat 123, Char.ofNat 125, '.', '!']

/-- One `strings.ReplaceAll(text, c, "\\"+c)` pass. -/
def replaceEsc (c : Char) : Str → Str
  | [] => []
  | d :: rest =>
    if d = c then '\\' :: c :: replaceEsc c rest else d :: replaceEsc c rest

/-- escapeMarkdown escapes special characters for Telegram's MarkdownV2 format
(`main.go` lines 259-265): one ReplaceAll pass per special character, in
order. -/
def escapeMarkdown (text : Str) : Str :=
  specialChars.foldl (fun t c => replaceEsc c t) text

/-- Decimal digits of a natural number, for the `%d` verbs in the
formatter. -/
def natDigits (n : Nat) : Str :=
  if n < 10 then [Char.ofNat (48 + n)]
  else natDigits (n / 10) ++ [Char.ofNat (48 + n % 10)]
decreasing_by
  have : 0 < n := by omega
  exact Nat.div_lt_self this (by omega)

/-- Decimal rendering of a Go `int` (`fmt.Sprintf` with `%d`). -/
def intToStr (z : Int) : Str :=
  if z < 0 then '-' :: natDigits (-z).toNat else natDigits z.toNat

/-- Digit accumulation of `strconv.ParseInt` in base 10. -/
def digitsToNat (s : Str) : Nat :=
  s.foldl (fun acc c => acc * 10 + (c.toNat - 48)) 0

/-- Optional leading sign of `strconv.ParseInt`. -/
def splitSign : Str → Bool × Str
  | '+' :: r => (false, r)
  | '-' :: r => (true, r)
  | s => (false, s)

/-- Syntactic base-10 integer parse (unbounded): `some` of the mathematical
value when the text is an optional sign followed by one or more decimal
digits, `none` otherwise. -/
def parseDec (s : Str) : Option Int :=
  let p := splitSign s
  if p.2 = [] then none
  else if p.2.all isGoDigit then
    some (if p.1 then -(digitsToNat p.2 : Int) else (digitsToNat p.2 : Int))
  else none

/-- Saturation of `strconv.ParseInt` at the 64-bit bounds. -/
def clamp64 (z : Int) : Int := max (-(2 ^ 63)) (min (2 ^ 63 - 1) z)

/-- Value returned by `strconv.Atoi` on a 64-bit platform, as used at
`main.go` line 246 where the error is discarded: 0 on a syntax error, the
saturated bound on a range error, the parsed value otherwise. -/
def goAtoi (s : Str) : Int :=
  match parseDec s with
  | none => 0
  | some z => clamp64 z

/-- Two's-complement wrap-around of Go 64-bit `int` arithmetic. -/
def wrap64 (z : Int) : Int := (z + 2 ^ 63) % 2 ^ 64 - 2 ^ 63

/-- Go `int` addition (64-bit, wrapping). -/
def goAddInt (a b : Int) : Int := wrap64 (a + b)

/-- The running total of `formatMissionsForTelegram` (`main.go` lines
243-248): `total += Atoi(mission.Amount)` over the list. -/
def telegramTotal (ms : List VBucksMission) : Int :=
  ms.foldl (fun t m => goAddInt t (goAtoi m.Amount)) 0

/-- One numbered line of the escaped list (`main.go` lines 234-240): the
format string `"%d\\. PL %s %s in %s \\- *%s V\\-Bucks*\n"` with every field
passed through `escapeMarkdown`. -/
def missionLine (idx : Nat) (m : VBucksMission) : Str :=
  natDigits (idx + 1) ++ ("\\. PL ").toList ++ escapeMarkdown m.PowerLevel ++
  ' ' :: escapeMarkdown m.MissionType ++ (" in ").toList ++
  escapeMarkdown m.Area ++ (" \\- *").toList ++ escapeMarkdown m.Amount ++
  (" V\\-Bucks*\n").toList

/-- formatMissionsForTelegram formats the missions as a MarkdownV2 list for
Telegram (`main.go` lines 226-256). -/
def formatMissionsForTelegram (vbucksMissions : List VBucksMission) : Str :=
  if vbucksMissions = [] then ("*No V\\-Bucks missions found today*").toList
  else
    ("*V\\-Bucks Missions Today*\n\n").toList ++
    (vbucksMissions.enum.map (fun p => missionLine p.1 p.2)).flatten ++
    ("\n*Total: ").toList ++ intToStr (telegramTotal vbucksMissions) ++
    (" V\\-Bucks*").toList

/-- UTC instant as the normalized calendar fields Go's `time` package exposes
(`Year`, `Month`, `Day`, `Hour`, `Minute`, `Second`, `Nanosecond`).  The cache
code only ever compares UTC values, for which `time.Time.After` agrees with
lexicographic comparison of these fields. -/
structure GoTime where
  year : Int
  month : Nat
  day : Nat
  hour : Nat
  minute : Nat
  second : Nat
  nsec : Nat
deriving DecidableEq

/-- Field list of a `GoTime`, most significant first. -/
def timeFields (t : GoTime) : List Int :=
  [t.year, (t.month : Int), (t.day : Int), (t.hour : Int), (t.minute : Int),
   (t.second : Int), (t.nsec : Int)]

/-- Lexicographic strictly-greater on equal-length integer lists. -/
def lexGtL : List Int → List Int → Bool
  | a :: as, b :: bs => if a = b then lexGtL as bs else decide (b < a)
  | _, _ => false

/-- Go `a.After(b)` for normalized UTC times: strict lexicographic comparison
of the calendar fields. -/
def timeAfter (a b : GoTime) : Bool := lexGtL (timeFields a) (timeFields b)

/-- todayReset from `main.go` line 296: today's date at 00:10:00 UTC. -/
def todayReset (now : GoTime) : GoTime :=
  ⟨now.year, now.month, now.day, 0, 10, 0, 0⟩

/-- CacheData represents the data being cached (`main.go` lines 27-30). -/
structure CacheData where
  Timestamp : GoTime
  VBucksMissions : List VBucksMission
deriving DecidableEq

/-- Go's zero `time.Time` (January 1, year 1, 00:00:00 UTC). -/
def zeroTime : GoTime := ⟨1, 1, 1, 0, 0, 0, 0⟩

/-- Zero-value `CacheData`, returned by `loadFromCache` on every failure
path. -/
def emptyCache : CacheData := ⟨zeroTime, []⟩

/-- State of the persisted cache file: absent, unreadable, present but not
valid JSON, or a parsed snapshot.  JSON (de)serialization of `CacheData`
round-trips field for field (exported string fields; `time.Time` marshals as
RFC 3339 with nanoseconds), so a parsed snapshot is modelled by its value. -/
inductive DiskState
  | missing
  | unreadable
  | corrupt
  | parsed (d : CacheData)
deriving DecidableEq

/-- loadFromCache (`main.go` lines 269-307): missing, unreadable or corrupt
state is invalid; a parsed snapshot is valid iff its timestamp and the current
time are both strictly after today's 00:10 UTC reset and the snapshot was
captured on the current UTC calendar date. -/
def loadFromCache (disk : DiskState) (now : GoTime) : CacheData × Bool :=
  match disk with
  | .missing => (emptyCache, false)
  | .unreadable => (emptyCache, false)
  | .corrupt => (emptyCache, false)
  | .parsed cacheData =>
    let cacheTime := cacheData.Timestamp
    let reset := todayReset now
    let cacheValid :=
      timeAfter cacheTime reset && timeAfter now reset &&
      cacheTime.year == now.year && cacheTime.month == now.month &&
      cacheTime.day == now.day
    (cacheData, cacheValid)

/-- saveToCache (`main.go` lines 310-327), successful-write path: persist the
missions wholesale with the current UTC time (a failed write is only logged
and leaves the previous disk state; the claims quantify over the successful
path). -/
def saveToCache (missions : List VBucksMission) (now : GoTime) : DiskState :=
  DiskState.parsed ⟨now, missions⟩

/-- getMissions (`main.go` lines 133-148) with the environment made explicit:
`fetchResult` is the record list `fetchMissions` would return if invoked.  The
returned Boolean reports whether the fetch actually ran. -/
def getMissions (disk : DiskState) (now : GoTime)
    (fetchResult : List VBucksMission) :
    List VBucksMission × DiskState × Bool :=
  let load := loadFromCache disk now
  if load.2 then (load.1.VBucksMissions, disk, false)
  else (fetchResult, saveToCache fetchResult now, true)

/-- Well-formed fragment of the shape
`<amount> <digits><suffix> <restWords...> in <area>`. -/
def mkFragment (amount digits suffix : Str) (rest : List Str) (area : Str) :
    Str :=
  joinWords (amount :: (digits ++ suffix) :: rest) ++ sepIn ++ area

/-- Decidable well-formedness condition on the part before the separator: no
nonempty suffix of `x` starts an occurrence of `" in "`, even one overlapping
into a following separator. -/
def cleanBefore (x : Str) : Bool :=
  x.tails.all fun t => t.isEmpty || !(sepIn.isPrefixOf (t ++ sepIn))

/-- True when the string does not start with a decimal digit (in particular on
the empty string). -/
def headNotDigit : Str → Bool
  | [] => true
  | c :: _ => !isGoDigit c

/-- True when the string does not start with whitespace (in particular on the
empty string). -/
def headOk : Str → Bool
  | [] => true
  | c :: _ => !isSpace c

/-- Scanner for the escaping property: with `prev` the character immediately
before the remaining text, every occurrence of `c` is immediately preceded by
a backslash. -/
def okForAux (c prev : Char) : Str → Bool
  | [] => true
  | d :: rest => ((d != c) || (prev == '\\')) && okForAux c d rest

/-- Every occurrence of `c` in `t` is immediately preceded by a backslash (an
occurrence at the head has nothing before it and fails). -/
def escapedOk (c : Char) (t : Str) : Bool := okForAux c ' ' t

/-- Parts of a fragment after the trim and the `" in "` split (`parts` at
`main.go` line 168). -/
def fragParts (text : Str) : List Str := splitOnIn (trimSpace text)

/-- Whitespace fields of the part before the separator (`fields` at `main.go`
line 177). -/
def fragFields (text : Str) : List Str := fields ((fragParts text).headD [])

/-- The second whitespace token of a fragment (`powerLevel` at `main.go`
line 184). -/
def secondTok (text : Str) : Str := ((fragFields text).drop 1).headD []

/-! ### Helper lemmas about whitespace, words and trimming -/

theorem tw_append_all (p : Char → Bool) :
    ∀ w t : Str, (∀ c ∈ w, p c = true) →
      (w ++ t).takeWhile p = w ++ t.takeWhile p := by
  intro w
  induction w with
  | nil => intro t _; simp
  | cons c w' ih =>
    intro t hw
    have hc : p c = true := hw c (by simp)
    have hw' : ∀ c' ∈ w', p c' = true := fun c' hm => hw c' (by simp [hm])
    simp [List.takeWhile_cons, hc, ih t hw']

theorem dw_append_all (p : Char → Bool) :
    ∀ w t : Str, (∀ c ∈ w, p c = true) →
      (w ++ t).dropWhile p = t.dropWhile p := by
  intro w
  induction w with
  | nil => intro t _; simp
  | cons c w' ih =>
    intro t hw
    have hc : p c = true := hw c (by simp)
    have hw' : ∀ c' ∈ w', p c' = true := fun c' hm => hw c' (by simp [hm])
    simp [List.dropWhile_cons, hc, ih t hw']

theorem dropWhile_headOk (s : Str) (h : headOk s = true) :
    s.dropWhile isSpace = s := by
  cases s with
  | nil => rfl
  | cons c t =>
    have hc : isSpace c = false := by simpa [headOk] using h
    simp [List.dropWhile_cons, hc]

theorem trim_fix (s : Str) (h1 : headOk s = true) (h2 : headOk s.reverse = true) :
    trimSpace s = s := by
  unfold trimSpace
  rw [dropWhile_headOk s h1, dropWhile_headOk s.reverse h2, List.reverse_reverse]

theorem trim_cons_space (t : Str) : trimSpace (' ' :: t) = trimSpace t := by
  have h : isSpace ' ' = true := by decide
  simp [trimSpace, List.dropWhile_cons, h]

theorem headOk_append (s t : Str) (h : s ≠ []) : headOk (s ++ t) = headOk s := by
  cases s with
  | nil => exact absurd rfl h
  | cons c u => rfl

theorem char_le_toNat {a b : Char} (h : a ≤ b) : a.toNat ≤ b.toNat := by
  simp [Char.le_def] at h
  exact h

theorem digit_not_space (c : Char) (h : isGoDigit c = true) : isSpace c = false := by
  have hd : '0' ≤ c ∧ c ≤ '9' := by simpa [isGoDigit] using h
  have h9 : c.toNat ≤ 57 := by
    have := char_le_toNat hd.2
    have e : ('9' : Char).toNat = 57 := by decide
    omega
  have h0 : 48 ≤ c.toNat := by
    have := char_le_toNat hd.1
    have e : ('0' : Char).toNat = 48 := by decide
    omega
  by_contra hs
  have hs' : isSpace c = true := by
    cases hx : isSpace c with
    | false => exact absurd hx hs
    | true => rfl
  simp only [isSpace, Bool.or_eq_true, beq_iff_eq, Bool.and_eq_true,
    decide_eq_true_eq] at hs'
  casesm* _ ∨ _
  all_goals first
    | (rename_i h2; subst h2; revert h0 h9; decide)
    | (rename_i h2
       have hx := char_le_toNat h2.1
       have e : (Char.ofNat 8192).toNat = 8192 := by decide
       omega)

/-! ### fields and joinWords -/

theorem fieldsAux_word :
    ∀ w : Str, (∀ c ∈ w, isSpace c = false) →
      ∀ cur t, fieldsAux cur (w ++ t) = fieldsAux (w.reverse ++ cur) t := by
  intro w
  induction w with
  | nil => intro _ cur t; simp
  | cons c w' ih =>
    intro hw cur t
    have hc : isSpace c = false := hw c (by simp)
    have hw' : ∀ c' ∈ w', isSpace c' = false := fun c' hm => hw c' (by simp [hm])
    have step : fieldsAux cur ((c :: w') ++ t) = fieldsAux (c :: cur) (w' ++ t) := by
      show fieldsAux cur (c :: (w' ++ t)) = fieldsAux (c :: cur) (w' ++ t)
      simp [fieldsAux, hc]
    rw [step, ih hw' (c :: cur) t]
    simp [List.append_assoc]

theorem fields_joinWords :
    ∀ ws : List Str, (∀ w ∈ ws, w ≠ [] ∧ ∀ c ∈ w, isSpace c = false) →
      fields (joinWords ws) = ws := by
  intro ws
  induction ws with
  | nil => intro _; rfl
  | cons w vs ih =>
    intro hws
    obtain ⟨hwne, hwsp⟩ := hws w (by simp)
    have hvs : ∀ v ∈ vs, v ≠ [] ∧ ∀ c ∈ v, isSpace c = false :=
      fun v hm => hws v (by simp [hm])
    cases vs with
    | nil =>
      show fieldsAux [] (joinWords [w]) = [w]
      have : joinWords [w] = w ++ [] := by simp [joinWords]
      rw [this, fieldsAux_word w hwsp [] []]
      have hrne : w.reverse ≠ [] := by simpa using hwne
      simp [fieldsAux, hrne]
    | cons v vs' =>
      show fieldsAux [] (joinWords (w :: v :: vs')) = w :: v :: vs'
      have hj : joinWords (w :: v :: vs') = w ++ ' ' :: joinWords (v :: vs') :=
        rfl
      rw [hj, fieldsAux_word w hwsp [] (' ' :: joinWords (v :: vs'))]
      have hsp : isSpace ' ' = true := by decide
      have hrne : w.reverse ≠ [] := by simpa using hwne
      simp only [List.append_nil, fieldsAux, hsp, if_true, hrne, if_false,
        List.reverse_reverse]
      exact congrArg (w :: ·) (ih hvs)

/-! ### isPrefixOf and splitOnIn -/

theorem isPrefixOf_append_self : ∀ p t : Str, p.isPrefixOf (p ++ t) = true := by
  intro p
  induction p with
  | nil => intro t; simp [List.isPrefixOf]
  | cons c p' ih => intro t; simp [List.isPrefixOf, ih]

theorem isPrefixOf_append_of_le :
    ∀ p a : Str, ∀ b : Str, p.length ≤ a.length →
      p.isPrefixOf (a ++ b) = p.isPrefixOf a := by
  intro p
  induction p with
  | nil => intro a b _; simp [List.isPrefixOf]
  | cons c p' ih =>
    intro a b hlen
    cases a with
    | nil => simp at hlen
    | cons d a' =>
      show (c == d && p'.isPrefixOf (a' ++ b)) = (c == d && p'.isPrefixOf a')
      rw [ih a' b (by simpa using hlen)]

theorem splitOnIn_sep (t : Str) :
    splitOnIn (' ' :: 'i' :: 'n' :: ' ' :: t) = [] :: splitOnIn t := by
  have h : sepIn.isPrefixOf (' ' :: 'i' :: 'n' :: ' ' :: t) = true :=
    isPrefixOf_append_self sepIn t
  rw [splitOnIn.eq_def]
  simp [h]

theorem splitOnIn_cons_neg (c : Char) (t : Str)
    (h : sepIn.isPrefixOf (c :: t) = false) :
    splitOnIn (c :: t) = consH c (splitOnIn t) := by
  rw [splitOnIn.eq_def]
  simp [h]

theorem splitOnIn_ne_nil : ∀ s : Str, splitOnIn s ≠ [] := by
  intro s
  cases s with
  | nil => simp [splitOnIn.eq_def]
  | cons c rest =>
    rw [splitOnIn.eq_def]
    by_cases h : sepIn.isPrefixOf (c :: rest) = true
    · simp only [h, if_true]
      cases rest with
      | nil => simp
      | cons a r1 =>
        cases r1 with
        | nil => simp
        | cons b r2 =>
          cases r2 with
          | nil => simp
          | cons d r3 => simp
    · have hf : sepIn.isPrefixOf (c :: rest) = false := by
        cases hx : sepIn.isPrefixOf (c :: rest) with
        | false => rfl
        | true => exact absurd hx h
      simp only [hf, Bool.false_eq_true, if_false]
      cases splitOnIn rest with
      | nil => simp [consH]
      | cons p ps => simp [consH]

theorem splitOnIn_noSep :
    ∀ y : Str, containsSub y sepIn = false → splitOnIn y = [y] := by
  intro y
  induction y with
  | nil => intro _; rfl
  | cons c t ih =>
    intro h
    have h2 : sepIn.isPrefixOf (c :: t) = false ∧ containsSub t sepIn = false := by
      simpa [containsSub] using h
    rw [splitOnIn_cons_neg c t h2.1, ih h2.2]
    rfl

theorem splitOnIn_append (y : Str) :
    ∀ x : Str,
      (∀ x2, x2 ≠ [] → x2 <:+ x →
        sepIn.isPrefixOf (x2 ++ (sepIn ++ y)) = false) →
      splitOnIn (x ++ (sepIn ++ y)) = x :: splitOnIn y := by
  intro x
  induction x with
  | nil =>
    intro _
    show splitOnIn (' ' :: 'i' :: 'n' :: ' ' :: y) = [] :: splitOnIn y
    exact splitOnIn_sep y
  | cons c x' ih =>
    intro h
    have hc : sepIn.isPrefixOf ((c :: x') ++ (sepIn ++ y)) = false :=
      h (c :: x') (by simp) (List.suffix_refl _)
    have hc' : sepIn.isPrefixOf (c :: (x' ++ (sepIn ++ y))) = false := by
      simpa using hc
    rw [List.cons_append, splitOnIn_cons_neg _ _ hc',
      ih (fun x2 hne hsuf => h x2 hne (hsuf.trans (List.suffix_cons c x')))]
    rfl

theorem cleanBefore_spec (x : Str) (h : cleanBefore x = true) (y : Str) :
    ∀ x2, x2 ≠ [] → x2 <:+ x → sepIn.isPrefixOf (x2 ++ (sepIn ++ y)) = false := by
  intro x2 hne hsuf
  have hmem : x2 ∈ x.tails := (List.mem_tails x2 x).mpr hsuf
  have h2 := (List.all_eq_true.mp h) x2 hmem
  have hie : x2.isEmpty = false := by
    cases x2 with
    | nil => exact absurd rfl hne
    | cons a b => rfl
  rw [hie] at h2
  simp only [Bool.false_or, Bool.not_eq_true'] at h2
  rw [← List.append_assoc]
  rw [isPrefixOf_append_of_le sepIn (x2 ++ sepIn) y (by simp [sepIn])]
  exact h2

/-! ### Digit scanning and word-boundary helpers -/

theorem takeWhile_digits (digits suffix : Str)
    (hd : ∀ c ∈ digits, isGoDigit c = true) (hs : headNotDigit suffix = true) :
    (digits ++ suffix).takeWhile isGoDigit = digits ∧
      (digits ++ suffix).dropWhile isGoDigit = suffix := by
  have h1 : suffix.takeWhile isGoDigit = [] := by
    cases suffix with
    | nil => rfl
    | cons c u =>
      have hc : isGoDigit c = false := by simpa [headNotDigit] using hs
      simp [List.takeWhile_cons, hc]
  have h2 : suffix.dropWhile isGoDigit = suffix := by
    cases suffix with
    | nil => rfl
    | cons c u =>
      have hc : isGoDigit c = false := by simpa [headNotDigit] using hs
      simp [List.dropWhile_cons, hc]
  constructor
  · rw [tw_append_all isGoDigit digits suffix hd, h1, List.append_nil]
  · rw [dw_append_all isGoDigit digits suffix hd, h2]

theorem tw_sat (p : Char → Bool) : ∀ l : Str, (l.takeWhile p).all p = true := by
  intro l
  induction l with
  | nil => rfl
  | cons c u ih =>
    by_cases hc : p c = true
    · simp [List.takeWhile_cons, hc, ih]
    · have hc' : p c = false := by
        cases hx : p c with
        | false => rfl
        | true => exact absurd hx hc
      simp [List.takeWhile_cons, hc']

theorem headOk_of_all (w : Str) (h : ∀ c ∈ w, isSpace c = false) :
    headOk w = true := by
  cases w with
  | nil => rfl
  | cons c u => simpa [headOk] using h c (by simp)

theorem joinWords_ne_nil (w : Str) (vs : List Str) (hw : w ≠ []) :
    joinWords (w :: vs) ≠ [] := by
  cases vs with
  | nil => exact hw
  | cons v vs' =>
    show w ++ ' ' :: joinWords (v :: vs') ≠ []
    cases w with
    | nil => exact absurd rfl hw
    | cons c u => simp

theorem headOk_joinWords (w : Str) (vs : List Str) (hw : w ≠ [])
    (h : headOk w = true) : headOk (joinWords (w :: vs)) = true := by
  cases vs with
  | nil => exact h
  | cons v vs' =>
    show headOk (w ++ ' ' :: joinWords (v :: vs')) = true
    rw [headOk_append w _ hw]
    exact h

theorem lastOk_joinWords :
    ∀ ws : List Str, (∀ w ∈ ws, w ≠ [] ∧ ∀ c ∈ w, isSpace c = false) →
      headOk (joinWords ws).reverse = true := by
  intro ws
  induction ws with
  | nil => intro _; rfl
  | cons w vs ih =>
    intro hws
    obtain ⟨hwne, hwsp⟩ := hws w (by simp)
    have hvs : ∀ v ∈ vs, v ≠ [] ∧ ∀ c ∈ v, isSpace c = false :=
      fun v hm => hws v (by simp [hm])
    cases vs with
    | nil =>
      show headOk (joinWords [w]).reverse = true
      have hj : joinWords [w] = w := rfl
      rw [hj]
      cases hr : w.reverse with
      | nil => rfl
      | cons c u =>
        have hc : c ∈ w := by
          have : c ∈ w.reverse := by rw [hr]; simp
          simpa using this
        simpa [headOk] using hwsp c hc
    | cons v vs' =>
      show headOk (w ++ ' ' :: joinWords (v :: vs')).reverse = true
      have hJne : joinWords (v :: vs') ≠ [] :=
        joinWords_ne_nil v vs' (hvs v (by simp)).1
      have hJr : (joinWords (v :: vs')).reverse ≠ [] := by simpa using hJne
      rw [List.reverse_append, List.reverse_cons, List.append_assoc,
        headOk_append _ _ hJr]
      exact ih hvs

/-! ### Escaping lemmas -/

theorem okForAux_replaceEsc_self (c : Char) (hc : c ≠ '\\') :
    ∀ (t : Str) (prev : Char), okForAux c prev (replaceEsc c t) = true := by
  intro t
  induction t with
  | nil => intro prev; rfl
  | cons d rest ih =>
    intro prev
    have h1 : ('\\' != c) = true := by
      simp only [bne_iff_ne, ne_eq]
      exact fun he => hc he.symm
    by_cases hd : d = c
    · subst hd
      simp only [replaceEsc, if_pos rfl, okForAux]
      rw [ih d]
      simp [h1]
    · simp only [replaceEsc, if_neg hd, okForAux]
      rw [ih d]
      have h2 : (d != c) = true := by simpa [bne_iff_ne] using hd
      simp [h2]

theorem okForAux_replaceEsc_other (c c' : Char) (hc : c ≠ '\\') (hcc : c ≠ c') :
    ∀ (t : Str) (prev : Char), okForAux c prev t = true →
      okForAux c prev (replaceEsc c' t) = true := by
  intro t
  induction t with
  | nil => intro prev _; rfl
  | cons d rest ih =>
    intro prev h
    have hsplit : ((d != c) = true ∨ (prev == '\\') = true) ∧
        okForAux c d rest = true := by
      simpa [okForAux, Bool.and_eq_true, Bool.or_eq_true] using h
    obtain ⟨h1, h2⟩ := hsplit
    have h3 : ('\\' != c) = true := by
      simp only [bne_iff_ne, ne_eq]
      exact fun he => hc he.symm
    by_cases hd : d = c'
    · subst hd
      have hd2 : (d != c) = true := by
        simp only [bne_iff_ne, ne_eq]
        exact fun he => hcc (he.symm ▸ rfl)
      simp only [replaceEsc, if_pos rfl, okForAux]
      rw [ih d h2]
      simp [h3, hd2]
    · simp only [replaceEsc, if_neg hd, okForAux]
      rw [ih d h2]
      rcases h1 with h1 | h1 <;> simp [h1]

theorem escapedOk_foldl_preserve (c : Char) (hc : c ≠ '\\') :
    ∀ (l : List Char) (t : Str), escapedOk c t = true →
      escapedOk c (l.foldl (fun acc ch => replaceEsc ch acc) t) = true := by
  intro l
  induction l with
  | nil => intro t h; exact h
  | cons c' l' ih =>
    intro t h
    simp only [List.foldl_cons]
    apply ih
    by_cases he : c = c'
    · rw [← he]
      exact okForAux_replaceEsc_self c hc t ' '
    · exact okForAux_replaceEsc_other c c' hc he t ' ' h

theorem escapedOk_foldl_mem (c : Char) (hc : c ≠ '\\') :
    ∀ (l : List Char) (t : Str), c ∈ l →
      escapedOk c (l.foldl (fun acc ch => replaceEsc ch acc) t) = true := by
  intro l
  induction l with
  | nil => intro t hm; simp at hm
  | cons c' l' ih =>
    intro t hm
    simp only [List.foldl_cons]
    rcases List.mem_cons.mp hm with he | hm'
    · rw [← he]
      exact escapedOk_foldl_preserve c hc l' _ (okForAux_replaceEsc_self c hc t ' ')
    · exact ih _ hm'

/-! ### 64-bit arithmetic lemmas -/

theorem wrap64_wrap64_add (a b : Int) : wrap64 (wrap64 a + b) = wrap64 (a + b) := by
  unfold wrap64
  have h1 : (a + 2 ^ 63) % 2 ^ 64 - 2 ^ 63 + b + 2 ^ 63 =
      (a + 2 ^ 63) % 2 ^ 64 + b := by ring
  rw [h1, Int.emod_add_emod]
  have h2 : a + 2 ^ 63 + b = a + b + 2 ^ 63 := by ring
  rw [h2]

theorem foldl_goAddInt (l : List Int) :
    ∀ t : Int, l.foldl goAddInt (wrap64 t) = wrap64 (t + l.sum) := by
  induction l with
  | nil => intro t; simp
  | cons a l' ih =>
    intro t
    simp only [List.foldl_cons, List.sum_cons]
    have hstep : goAddInt (wrap64 t) a = wrap64 (t + a) := wrap64_wrap64_add t a
    rw [hstep, ih (t + a)]
    exact congrArg wrap64 (by ring)

theorem telegramTotal_aux (ms : List VBucksMission) :
    ∀ t : Int,
      ms.foldl (fun t m => goAddInt t (goAtoi m.Amount)) (wrap64 t) =
        wrap64 (t + (ms.map fun m => goAtoi m.Amount).sum) := by
  induction ms with
  | nil => intro t; simp
  | cons m ms' ih =>
    intro t
    simp only [List.foldl_cons, List.map_cons, List.sum_cons]
    have hstep : goAddInt (wrap64 t) (goAtoi m.Amount) =
        wrap64 (t + goAtoi m.Amount) := wrap64_wrap64_add t (goAtoi m.Amount)
    rw [hstep, ih (t + goAtoi m.Amount)]
    exact congrArg wrap64 (by ring)

theorem telegramTotal_eq (ms : List VBucksMission) :
    telegramTotal ms = wrap64 ((ms.map fun m => goAtoi m.Amount).sum) := by
  have h0 : wrap64 0 = 0 := by decide
  have h := telegramTotal_aux ms 0
  rw [h0] at h
  unfold telegramTotal
  rw [h, Int.zero_add]

/-! ### Lexicographic time comparison -/

theorem lexGtL_nil_left (bs : List Int) : lexGtL [] bs = false := by
  cases bs <;> rfl

theorem lexGtL_nil_right (as : List Int) : lexGtL as [] = false := by
  cases as <;> rfl

theorem lexGtL_cons_cons (a b : Int) (as bs : List Int) :
    lexGtL (a :: as) (b :: bs) =
      if a = b then lexGtL as bs else decide (b < a) := rfl

theorem lexGtL_trans :
    ∀ as bs cs : List Int, lexGtL as bs = true → lexGtL bs cs = true →
      lexGtL as cs = true := by
  intro as
  induction as with
  | nil => intro bs cs h1 _; rw [lexGtL_nil_left] at h1; exact absurd h1 (by simp)
  | cons a as' ih =>
    intro bs cs h1 h2
    cases bs with
    | nil => rw [lexGtL_nil_right] at h1; exact absurd h1 (by simp)
    | cons b bs' =>
      cases cs with
      | nil => rw [lexGtL_nil_right] at h2; exact absurd h2 (by simp)
      | cons c cs' =>
        rw [lexGtL_cons_cons] at h1 h2 ⊢
        by_cases hab : a = b
        · rw [if_pos hab] at h1
          by_cases hbc : b = c
          · rw [if_pos hbc] at h2
            rw [if_pos (hab.trans hbc)]
            exact ih bs' cs' h1 h2
          · rw [if_neg hbc] at h2
            have hcb : c < b := by simpa using h2
            have hne : a ≠ c := by omega
            rw [if_neg hne]
            simp only [decide_eq_true_eq]
            omega
        · rw [if_neg hab] at h1
          have hba : b < a := by simpa using h1
          by_cases hbc : b = c
          · have hne : a ≠ c := by omega
            rw [if_neg hne]
            simp only [decide_eq_true_eq]
            omega
          · rw [if_neg hbc] at h2
            have hcb : c < b := by simpa using h2
            have hne : a ≠ c := by omega
            rw [if_neg hne]
            simp only [decide_eq_true_eq]
            omega

/-! ### Claim theorems -/

/-- Claim C9: a fragment containing the known promotional phrase (fixed
case-sensitive substring `Use code "iFeral"`) is skipped before extraction:
it produces no record, and removing it from the fragment list does not change
the fetched mission list. -/
theorem c9_promo_filtered (frag : Str) (h : containsSub frag promoPhrase = true) :
    processFragment frag = none ∧
      ∀ pre post : List Str,
        fetchMissions (pre ++ frag :: post) = fetchMissions (pre ++ post) := by
  have h1 : processFragment frag = none := by
    unfold processFragment
    rw [if_pos h]
  refine ⟨h1, ?_⟩
  intro pre post
  unfold fetchMissions
  rw [List.filterMap_append, List.filterMap_append]
  congr 1
  simp [List.filterMap_cons, h1]

/-- Witness for C9 at a concrete promotional fragment. -/
theorem c9_promo_filtered_witness :
    processFragment (("Use code \"iFeral\" to support").toList) = none ∧
      fetchMissions [("500 80PL Defend in Stonewood").toList,
          ("Use code \"iFeral\" to support").toList] =
        fetchMissions [("500 80PL Defend in Stonewood").toList] := by
  have h := c9_promo_filtered (("Use code \"iFeral\" to support").toList)
    (by decide)
  exact ⟨h.1, h.2 [("500 80PL Defend in Stonewood").toList] []⟩

/-- Claim C4 is contradicted by the code: an upstream fetch failure in the
(only) interactive bot mode is not recoverable — `fetchMissions` calls
`log.Fatal(err)`, which terminates the listener process instead of logging
and answering with a "no missions found" response. -/
theorem c4_fetch_failure_fatal :
    (∀ e : Str, fetchMissionsIO (Except.error e) = FetchOutcome.fatalExit e) ∧
      fetchMissionsIO (Except.error (("Get request failed").toList)) ≠
        FetchOutcome.missions [] := by
  constructor
  · intro e; rfl
  · decide

/-- Claim C2: `loadFromCache` reports a valid cache exactly when the snapshot
exists and parses, its timestamp and the current time are both strictly after
today's 00:10:00 UTC reset, and the snapshot's UTC calendar date equals the
current one; in particular a snapshot captured today at 00:05 UTC and checked
at 00:08 UTC is invalid. -/
theorem c2_loadFromCache_valid_iff (disk : DiskState) (now : GoTime) :
    ((loadFromCache disk now).2 = true ↔
      ∃ cd, disk = DiskState.parsed cd ∧
        timeAfter cd.Timestamp (todayReset now) = true ∧
        timeAfter now (todayReset now) = true ∧
        cd.Timestamp.year = now.year ∧ cd.Timestamp.month = now.month ∧
        cd.Timestamp.day = now.day) ∧
    (loadFromCache
        (DiskState.parsed ⟨⟨2025, 10, 11, 0, 5, 0, 0⟩, []⟩)
        ⟨2025, 10, 11, 0, 8, 0, 0⟩).2 = false := by
  constructor
  · constructor
    · intro h
      cases disk with
      | missing => simp [loadFromCache] at h
      | unreadable => simp [loadFromCache] at h
      | corrupt => simp [loadFromCache] at h
      | parsed cd =>
        refine ⟨cd, rfl, ?_⟩
        simp only [loadFromCache, Bool.and_eq_true, beq_iff_eq] at h
        tauto
    · rintro ⟨cd, hd, h1, h2, h3, h4, h5⟩
      subst hd
      simp [loadFromCache, h1, h2, h3, h4, h5]
  · decide

/-- Claim C8: saving a record list and loading it again within the same UTC
day, both strictly after the 00:10 UTC reset, returns the records unchanged
(timestamp included) with validity `true`. -/
theorem c8_save_load_roundtrip (ms : List VBucksMission) (t1 t2 : GoTime)
    (hy : t1.year = t2.year) (hmo : t1.month = t2.month) (hd : t1.day = t2.day)
    (h1 : timeAfter t1 (todayReset t1) = true)
    (h2 : timeAfter t2 (todayReset t2) = true) :
    loadFromCache (saveToCache ms t1) t2 = (⟨t1, ms⟩, true) := by
  have hres : todayReset t2 = todayReset t1 := by
    simp [todayReset, hy, hmo, hd]
  rw [hres] at h2
  simp [saveToCache, loadFromCache, hres, h1, h2, hy, hmo, hd]

/-- Witness for C8 at a concrete record list and time. -/
theorem c8_save_load_roundtrip_witness :
    loadFromCache
        (saveToCache [⟨("Stonewood").toList, ("80").toList, ("500").toList,
          ("PL Defend").toList⟩] ⟨2025, 10, 11, 12, 0, 0, 0⟩)
        ⟨2025, 10, 11, 12, 0, 0, 0⟩ =
      (⟨⟨2025, 10, 11, 12, 0, 0, 0⟩,
        [⟨("Stonewood").toList, ("80").toList, ("500").toList,
          ("PL Defend").toList⟩]⟩, true) :=
  c8_save_load_roundtrip _ _ _ rfl rfl rfl (by decide) (by decide)

/-- Claim C10: on an invalid or missing cache, `getMissions` saves the freshly
fetched list even when it is empty, and any later call on the same UTC day
(the first fetch having happened strictly after 00:10 UTC) finds the empty
snapshot valid and returns no missions without fetching again. -/
theorem c10_getMissions_empty_cached (disk : DiskState) (t1 t2 : GoTime)
    (hinv : (loadFromCache disk t1).2 = false)
    (h1 : timeAfter t1 (todayReset t1) = true)
    (hy : t1.year = t2.year) (hmo : t1.month = t2.month) (hd : t1.day = t2.day)
    (h21 : t2 = t1 ∨ timeAfter t2 t1 = true) :
    getMissions disk t1 [] = ([], DiskState.parsed ⟨t1, []⟩, true) ∧
      ∀ fetch2 : List VBucksMission,
        getMissions (DiskState.parsed ⟨t1, []⟩) t2 fetch2 =
          ([], DiskState.parsed ⟨t1, []⟩, false) := by
  constructor
  · simp [getMissions, hinv, saveToCache]
  · intro fetch2
    have hres : todayReset t2 = todayReset t1 := by
      simp [todayReset, hy, hmo, hd]
    have h2 : timeAfter t2 (todayReset t2) = true := by
      rw [hres]
      rcases h21 with h21 | h21
      · rw [h21]; exact h1
      · have h21' : lexGtL (timeFields t2) (timeFields t1) = true := h21
        have h1' : lexGtL (timeFields t1) (timeFields (todayReset t1)) = true := h1
        show lexGtL (timeFields t2) (timeFields (todayReset t1)) = true
        exact lexGtL_trans _ _ _ h21' h1'
    have ht1 : timeAfter t1 (todayReset t2) = true := by rw [hres]; exact h1
    simp [getMissions, loadFromCache, ht1, h2, hy, hmo, hd]

/-- Witness for C10 at a concrete scenario: a missing cache, a fetch with no
records at 01:00 UTC, and a second call at 02:00 UTC the same day with a
nonempty would-be fetch result. -/
theorem c10_getMissions_empty_cached_witness :
    getMissions DiskState.missing ⟨2025, 10, 11, 1, 0, 0, 0⟩ [] =
      ([], DiskState.parsed ⟨⟨2025, 10, 11, 1, 0, 0, 0⟩, []⟩, true) ∧
      getMissions (DiskState.parsed ⟨⟨2025, 10, 11, 1, 0, 0, 0⟩, []⟩)
          ⟨2025, 10, 11, 2, 0, 0, 0⟩
          [⟨("A").toList, ("1").toList, ("10").toList, ("B").toList⟩] =
        ([], DiskState.parsed ⟨⟨2025, 10, 11, 1, 0, 0, 0⟩, []⟩, false) := by
  have h := c10_getMissions_empty_cached DiskState.missing
    ⟨2025, 10, 11, 1, 0, 0, 0⟩ ⟨2025, 10, 11, 2, 0, 0, 0⟩ (by decide)
    (by decide) rfl rfl rfl (Or.inr (by decide))
  exact ⟨h.1, h.2 _⟩

/-- Claim C6: the escaped-list rendering passes every interpolated field
(powerLevel, missionType, area, amount) through `escapeMarkdown`, and in the
output of `escapeMarkdown` every occurrence of a character from the fixed
markup-significant set is immediately preceded by a backslash. -/
theorem c6_escaped_fields (s : Str) (idx : Nat) (m : VBucksMission) :
    specialChars.all (fun c => escapedOk c (escapeMarkdown s)) = true ∧
      missionLine idx m =
        natDigits (idx + 1) ++ ("\\. PL ").toList ++
          escapeMarkdown m.PowerLevel ++ ' ' :: escapeMarkdown m.MissionType ++
          (" in ").toList ++ escapeMarkdown m.Area ++ (" \\- *").toList ++
          escapeMarkdown m.Amount ++ (" V\\-Bucks*\n").toList := by
  constructor
  · rw [List.all_eq_true]
    intro c hm
    have hc : c ≠ '\\' := fun he => by
      rw [he] at hm
      exact absurd hm (by decide)
    exact escapedOk_foldl_mem c hc specialChars s hm
  · rfl

/-- Claim C5 is false as stated: for the single record whose amount is the
decimal text of 2^63, Go's `Atoi` fails with a range error but returns the
saturated value 2^63 - 1, which the total loop adds — the record does not
contribute the parsed integer 2^63, nor 0. -/
theorem c5_total_counterexample :
    telegramTotal
        ([⟨[], [], ("9223372036854775808").toList, []⟩] : List VBucksMission) ≠
      (([⟨[], [], ("9223372036854775808").toList, []⟩] : List VBucksMission).map
        (fun m => (parseDec m.Amount).getD 0)).sum := by
  decide

/-- Claim C5 amended: the footer total is the 64-bit wrapping sum over all
records of the value `strconv.Atoi` returns for the amount — 0 for a
syntactically invalid amount, the saturated 64-bit bound for an out-of-range
one — and the escaped-list output ends with that total in its footer. -/
theorem c5_total_amended (ms : List VBucksMission) :
    telegramTotal ms = wrap64 ((ms.map fun m => goAtoi m.Amount).sum) ∧
      (∀ s : Str, parseDec s = none → goAtoi s = 0) ∧
      (ms ≠ [] →
        ∃ body : Str,
          formatMissionsForTelegram ms =
            body ++ ("\n*Total: ").toList ++
              intToStr (wrap64 ((ms.map fun m => goAtoi m.Amount).sum)) ++
              (" V\\-Bucks*").toList) := by
  refine ⟨telegramTotal_eq ms, ?_, ?_⟩
  · intro s hs
    simp [goAtoi, hs]
  · intro hne
    refine ⟨("*V\\-Bucks Missions Today*\n\n").toList ++
      (ms.enum.map fun p => missionLine p.1 p.2).flatten, ?_⟩
    unfold formatMissionsForTelegram
    rw [if_neg hne, telegramTotal_eq ms]

/-- Witness for the amended C5 at a concrete record list and a concrete
syntactically invalid amount. -/
theorem c5_total_amended_witness :
    telegramTotal ([⟨("Stonewood").toList, ("80").toList, ("500").toList,
        ("PL Defend").toList⟩] : List VBucksMission) =
      wrap64 ((([⟨("Stonewood").toList, ("80").toList, ("500").toList,
        ("PL Defend").toList⟩] : List VBucksMission).map
          fun m => goAtoi m.Amount).sum) ∧
      goAtoi (("12a").toList) = 0 ∧
      ∃ body : Str,
        formatMissionsForTelegram ([⟨("Stonewood").toList, ("80").toList,
            ("500").toList, ("PL Defend").toList⟩] : List VBucksMission) =
          body ++ ("\n*Total: ").toList ++
            intToStr (wrap64 ((([⟨("Stonewood").toList, ("80").toList,
              ("500").toList, ("PL Defend").toList⟩] : List VBucksMission).map
                fun m => goAtoi m.Amount).sum)) ++
            (" V\\-Bucks*").toList := by
  have h := c5_total_amended ([⟨("Stonewood").toList, ("80").toList,
    ("500").toList, ("PL Defend").toList⟩] : List VBucksMission)
  exact ⟨h.1, h.2.1 (("12a").toList) (by decide), h.2.2 (by decide)⟩

/-- Claim C7: for every fragment the extractor accepts, the stored power
level is the maximal leading run of decimal digits of the second whitespace
token — hence it contains only digits — and when that token starts with a
non-digit the power level is empty and the entire token is folded into the
mission type. -/
theorem c7_powerLevel_digits (text : Str) (m : VBucksMission)
    (h : processFragment text = some m) :
    m.PowerLevel = (secondTok text).takeWhile isGoDigit ∧
      m.PowerLevel.all isGoDigit = true ∧
      (headNotDigit (secondTok text) = true →
        m.PowerLevel = [] ∧
          m.MissionType =
            trimSpace (secondTok text ++
              ' ' :: joinWords ((fragFields text).drop 2))) := by
  unfold processFragment at h
  by_cases hp : containsSub text promoPhrase = true
  · rw [if_pos hp] at h
    exact absurd h (by simp)
  · rw [if_neg hp] at h
    dsimp only [] at h
    cases hsplit : splitOnIn (trimSpace text) with
    | nil => rw [hsplit] at h; exact absurd h (by simp)
    | cons part0 parts' =>
      cases parts' with
      | nil => rw [hsplit] at h; exact absurd h (by simp)
      | cons part1 prest =>
        rw [hsplit] at h
        dsimp only [] at h
        have hff : fragFields text = fields part0 := by
          unfold fragFields fragParts
          rw [hsplit]
          rfl
        cases hfs : fields part0 with
        | nil => rw [hfs] at h; exact absurd h (by simp)
        | cons amount fs' =>
          cases fs' with
          | nil => rw [hfs] at h; exact absurd h (by simp)
          | cons powerLevel restFields =>
            rw [hfs] at h
            dsimp only [] at h
            simp only [Option.some.injEq] at h
            have htok : secondTok text = powerLevel := by
              unfold secondTok
              rw [hff, hfs]
              rfl
            have hdrop : (fragFields text).drop 2 = restFields := by
              rw [hff, hfs]
              rfl
            subst h
            rw [htok, hdrop]
            refine ⟨rfl, tw_sat isGoDigit powerLevel, ?_⟩
            intro hnd
            cases powerLevel with
            | nil =>
              refine ⟨rfl, ?_⟩
              show trimSpace (joinWords restFields) =
                trimSpace ([] ++ ' ' :: joinWords restFields)
              rw [List.nil_append, trim_cons_space]
            | cons c pl' =>
              have hc : isGoDigit c = false := by
                simpa [headNotDigit] using hnd
              have htw : (c :: pl').takeWhile isGoDigit = [] := by
                simp [List.takeWhile_cons, hc]
              have hdw : (c :: pl').dropWhile isGoDigit = c :: pl' := by
                simp [List.dropWhile_cons, hc]
              refine ⟨htw, ?_⟩
              show trimSpace (if (c :: pl').dropWhile isGoDigit = []
                then joinWords restFields
                else (c :: pl').dropWhile isGoDigit ++ ' ' :: joinWords restFields) =
                trimSpace ((c :: pl') ++ ' ' :: joinWords restFields)
              rw [hdw, if_neg (by simp)]

/-- Witness for C7 at a concrete accepted fragment whose second token starts
with a non-digit. -/
theorem c7_powerLevel_digits_witness :
    (processFragment (("500 Fight the Storm in Plankerton").toList)).isSome = true ∧
      ∀ m, processFragment (("500 Fight the Storm in Plankerton").toList) = some m →
        m.PowerLevel =
            (secondTok (("500 Fight the Storm in Plankerton").toList)).takeWhile
              isGoDigit ∧
          m.PowerLevel.all isGoDigit = true := by
  constructor
  · decide
  · intro m hm
    have h := c7_powerLevel_digits _ m hm
    exact ⟨h.1, h.2.1⟩

/-- Claim C1: for every well-formed fragment
`<amount> <digits><suffix> <restWords...> in <area>` — tokens nonempty and
whitespace-free where stated, `digits` nonempty decimal digits, `suffix` not
starting with a digit, no stray `" in "` occurrence before the separator or
inside the area, the area not padded with whitespace, and the promotional
phrase absent — the extractor yields exactly
`{amount, powerLevel = digits, missionType = trim(suffix ++ " " ++ rest),
area}`. -/
theorem c1_extractor_wellformed (amount digits suffix area : Str)
    (rest : List Str)
    (ham : amount ≠ []) (hamsp : ∀ c ∈ amount, isSpace c = false)
    (hdg : digits ≠ []) (hdgd : ∀ c ∈ digits, isGoDigit c = true)
    (hsfsp : ∀ c ∈ suffix, isSpace c = false)
    (hsfh : headNotDigit suffix = true)
    (hrest : ∀ w ∈ rest, w ≠ [] ∧ ∀ c ∈ w, isSpace c = false)
    (hclean : cleanBefore (joinWords (amount :: (digits ++ suffix) :: rest)) =
      true)
    (harea : containsSub area sepIn = false)
    (hane : area ≠ [])
    (hah : headOk area = true) (hal : headOk area.reverse = true)
    (hpromo : containsSub (mkFragment amount digits suffix rest area)
      promoPhrase = false) :
    processFragment (mkFragment amount digits suffix rest area) =
      some ⟨area, digits, amount,
        trimSpace (suffix ++ ' ' :: joinWords rest)⟩ := by
  have hws : ∀ w ∈ amount :: (digits ++ suffix) :: rest,
      w ≠ [] ∧ ∀ c ∈ w, isSpace c = false := by
    intro w hw
    rcases List.mem_cons.mp hw with hw1 | hw
    · subst hw1; exact ⟨ham, hamsp⟩
    rcases List.mem_cons.mp hw with hw1 | hw
    · subst hw1
      refine ⟨?_, ?_⟩
      · cases digits with
        | nil => exact absurd rfl hdg
        | cons d ds => simp
      · intro c hc
        rcases List.mem_append.mp hc with hc | hc
        · exact digit_not_space c (hdgd c hc)
        · exact hsfsp c hc
    · exact hrest w hw
  have hfrag3 : mkFragment amount digits suffix rest area =
      joinWords (amount :: (digits ++ suffix) :: rest) ++ (sepIn ++ area) := by
    unfold mkFragment
    rw [List.append_assoc]
  have hsplit : splitOnIn (mkFragment amount digits suffix rest area) =
      [joinWords (amount :: (digits ++ suffix) :: rest), area] := by
    rw [hfrag3, splitOnIn_append area _ (cleanBefore_spec _ hclean area),
      splitOnIn_noSep area harea]
  have hjw : joinWords (amount :: (digits ++ suffix) :: rest) =
      amount ++ ' ' :: joinWords ((digits ++ suffix) :: rest) := rfl
  have hfhead : headOk (mkFragment amount digits suffix rest area) = true := by
    rw [hfrag3, hjw, List.append_assoc, headOk_append amount _ ham]
    exact headOk_of_all amount hamsp
  have hfrev :
      headOk (mkFragment amount digits suffix rest area).reverse = true := by
    have h4 : mkFragment amount digits suffix rest area =
        (joinWords (amount :: (digits ++ suffix) :: rest) ++ sepIn) ++ area := by
      rw [hfrag3, List.append_assoc]
    have hrne : area.reverse ≠ [] := by simpa using hane
    rw [h4, List.reverse_append, headOk_append _ _ hrne]
    exact hal
  have htrim : trimSpace (mkFragment amount digits suffix rest area) =
      mkFragment amount digits suffix rest area := trim_fix _ hfhead hfrev
  have hfields : fields (joinWords (amount :: (digits ++ suffix) :: rest)) =
      amount :: (digits ++ suffix) :: rest := fields_joinWords _ hws
  have htd := takeWhile_digits digits suffix hdgd hsfh
  have hareatrim : trimSpace area = area := trim_fix area hah hal
  unfold processFragment
  rw [if_neg (by simp [hpromo])]
  dsimp only []
  rw [htrim, hsplit]
  dsimp only []
  rw [hfields]
  dsimp only []
  rw [hareatrim, htd.1, htd.2]
  cases suffix with
  | nil =>
    rw [if_pos rfl, List.nil_append, trim_cons_space]
  | cons sc sr =>
    rw [if_neg (by simp)]

/-- Witness for C1 at the concrete fragment from the specification. -/
theorem c1_extractor_wellformed_witness :
    processFragment (("500 80PL Defend in Stonewood").toList) =
      some ⟨("Stonewood").toList, ("80").toList, ("500").toList,
        ("PL Defend").toList⟩ := by
  have h := c1_extractor_wellformed (("500").toList) (("80").toList)
    (("PL").toList) (("Stonewood").toList) [("Defend").toList]
    (by decide) (by decide) (by decide) (by decide) (by decide) (by decide)
    (by decide) (by decide) (by decide) (by decide) (by decide) (by decide)
    (by decide)
  exact h

/-- Claim C3 is false as stated for fragments that contain `" in "` more than
once: `strings.Split` splits on every occurrence, so `parts[1]` — the stored
area — is only the text between the first and the second separator, not the
whole trimmed remainder after the first one. -/
theorem c3_first_separator_counterexample :
    processFragment (("500 80PL Defend in Stonewood in Plankerton").toList) =
      some ⟨("Stonewood").toList, ("80").toList, ("500").toList,
        ("PL Defend").toList⟩ ∧
      ("Stonewood").toList ≠
        trimSpace (("Stonewood in Plankerton").toList) := by
  constructor
  · decide
  · decide

/-- Claim C3 amended: the extractor splits the trimmed fragment on every
occurrence of `" in "`; when the trimmed fragment contains no separator it is
rejected with no record, and when the separator occurs twice the stored area
is the trimmed portion strictly between the first and second occurrences. -/
theorem c3_split_amended :
    (∀ text : Str, containsSub (trimSpace text) sepIn = false →
      processFragment text = none) ∧
    (∀ x y z : Str,
      cleanBefore x = true → cleanBefore y = true →
      x ≠ [] → headOk x = true → z ≠ [] → headOk z.reverse = true →
      2 ≤ (fields x).length →
      containsSub (x ++ (sepIn ++ (y ++ (sepIn ++ z)))) promoPhrase = false →
      ∃ m, processFragment (x ++ (sepIn ++ (y ++ (sepIn ++ z)))) = some m ∧
        m.Area = trimSpace y) := by
  constructor
  · intro text hns
    unfold processFragment
    by_cases hp : containsSub text promoPhrase = true
    · rw [if_pos hp]
    · rw [if_neg hp]
      dsimp only []
      rw [splitOnIn_noSep _ hns]
  · intro x y z hcx hcy hxne hxh hzne hzl hflen hpromo
    have hsplit2 : splitOnIn (x ++ (sepIn ++ (y ++ (sepIn ++ z)))) =
        x :: y :: splitOnIn z := by
      rw [splitOnIn_append _ x (cleanBefore_spec x hcx _),
        splitOnIn_append z y (cleanBefore_spec y hcy z)]
    have hhead : headOk (x ++ (sepIn ++ (y ++ (sepIn ++ z)))) = true := by
      rw [headOk_append x _ hxne]
      exact hxh
    have hrev :
        headOk (x ++ (sepIn ++ (y ++ (sepIn ++ z)))).reverse = true := by
      have hgrp : x ++ (sepIn ++ (y ++ (sepIn ++ z))) =
          (x ++ (sepIn ++ (y ++ sepIn))) ++ z := by
        simp [List.append_assoc]
      have hzrne : z.reverse ≠ [] := by simpa using hzne
      rw [hgrp, List.reverse_append, headOk_append _ _ hzrne]
      exact hzl
    have htrim := trim_fix _ hhead hrev
    cases hfx : fields x with
    | nil => rw [hfx] at hflen; simp at hflen
    | cons f0 fr =>
      cases fr with
      | nil => rw [hfx] at hflen; simp at hflen
      | cons f1 fr2 =>
        have hval : processFragment (x ++ (sepIn ++ (y ++ (sepIn ++ z)))) =
            some ⟨trimSpace y, List.takeWhile isGoDigit f1, f0,
              trimSpace (if List.dropWhile isGoDigit f1 = [] then joinWords fr2
                else List.dropWhile isGoDigit f1 ++ ' ' :: joinWords fr2)⟩ := by
          unfold processFragment
          rw [if_neg (by simp [hpromo])]
          dsimp only []
          rw [htrim, hsplit2]
          dsimp only []
          rw [hfx]
        exact ⟨_, hval, rfl⟩

/-- Witness for the amended C3: a fragment with no separator is rejected, and
a fragment with two separators stores the middle portion as the area. -/
theorem c3_split_amended_witness :
    processFragment (("just some text").toList) = none ∧
      ∃ m,
        processFragment
            (("500 80PL Defend in Stonewood in Plankerton").toList) = some m ∧
          m.Area = trimSpace (("Stonewood").toList) := by
  refine ⟨c3_split_amended.1 (("just some text").toList) (by decide), ?_⟩
  have h2 := c3_split_amended.2 (("500 80PL Defend").toList)
    (("Stonewood").toList) (("Plankerton").toList) (by decide) (by decide)
    (by decide) (by decide) (by decide) (by decide) (by decide) (by decide)
  exact h2
